import Mathlib

/-!
Verification of the lightweight codebase-retrieval engine of
`backend/integrations/retrieval.py`: repository scanner (`iter_repo_files`),
chunker (`chunk_text`), tokenizer (`simple_tokenize`), TF-IDF index builder
(`CodebaseIndexer.build`) and query engine (`CodebaseIndexer.query`,
`suggest_code_patterns`).

Modelling conventions:
* Python floats are modelled as real numbers (`ℝ`); `math.log` is `Real.log`
  and `math.sqrt` is `Real.sqrt`.
* A dictionary `Dict[str, float]` whose absent keys read as `0.0`
  (`d.get(t)` / `d.get(t, 0)`) is modelled as a total function together with
  the list of its keys (`TfVec`).
* The filesystem seen by `os.walk` is a finite directory tree (`Dir`);
  a missing or unreadable root is `none` (Python's `os.walk` swallows the
  scandir error by default and yields nothing).  A file whose content fails
  to read/decode (the `try/except` around `open`) carries `none` content.
* Strings are processed character-wise; `str.lower` is `Char.toLower`
  per character and `splitlines` recognises the LF / CRLF / CR line breaks.
-/

namespace Retrieval

/-! ### Tokenizer: `simple_tokenize` (retrieval.py lines 40-43) -/

/-- A character of the regex class `[A-Za-z0-9_]` (ASCII letter, digit or
underscore); `re.split` splits on maximal runs of its complement. -/
def isWordChar (c : Char) : Bool :=
  c.isAlpha || c.isDigit || c = '_'

/-- `re.split(pat+, s)` where `pat` matches single characters satisfying `p`:
split `s` on every maximal run of characters satisfying `p`.  Mirrors Python
semantics: a leading or trailing separator run produces an empty piece, and
the pieces between two consecutive separator runs never collapse. -/
def splitRuns (p : Char → Bool) : List Char → List (List Char)
  | [] => [[]]
  | c :: rest =>
    let r := splitRuns p rest
    if p c then
      match rest with
      | [] => [] :: r
      | d :: _ => if p d then r else [] :: r
    else
      match r with
      | [] => [[c]]
      | t :: ts => (c :: t) :: ts

/-- `simple_tokenize`: lowercase, split on runs of non-word characters, keep
only tokens of length strictly greater than 2 (retrieval.py lines 40-43). -/
def simple_tokenize (text : String) : List String :=
  (splitRuns (fun c => !(isWordChar c)) (text.toList.map Char.toLower)).filterMap
    (fun t => if 2 < t.length then some (String.mk t) else none)

/-! ### Line splitting and the chunker: `chunk_text` (lines 54-60) -/

/-- `str.splitlines` on the LF / CRLF / CR line terminators: the list of
lines, terminators removed, with no phantom empty line after a trailing
terminator. -/
def splitlinesCh : List Char → List (List Char)
  | [] => []
  | '\r' :: '\n' :: rest => [] :: splitlinesCh rest
  | '\r' :: rest => [] :: splitlinesCh rest
  | '\n' :: rest => [] :: splitlinesCh rest
  | c :: rest =>
    match splitlinesCh rest with
    | [] => [[c]]
    | t :: ts => (c :: t) :: ts

def splitlines (s : String) : List String :=
  (splitlinesCh s.toList).map (fun l => String.mk l)

/-- `"\n".join` -/
def joinNL : List String → String
  | [] => ""
  | [s] => s
  | s :: rest => s ++ "\n" ++ joinNL rest

/-- The loop `for i in range(0, len(lines), max_lines)` of `chunk_text`:
`rem` is `lines[i:]` and `L` the total number of lines.  Each pass records
`(i + 1, min(i + len(lines[i:i+M]), L), lines[i:i+M])`. -/
def chunkAux (M L : ℕ) (hM : 0 < M) : List String → ℕ → List (ℕ × ℕ × List String)
  | [], _ => []
  | l :: ls, i =>
    (i + 1, min (i + ((l :: ls).take M).length) L, (l :: ls).take M) ::
      chunkAux M L hM ((l :: ls).drop M) (i + M)
  termination_by ls _ => ls.length
  decreasing_by simp only [List.length_drop, List.length_cons]; omega

/-- `chunk_text` restricted to the line list (the source first does
`lines = text.splitlines()`).  A zero `max_lines` would make Python's
`range` raise; the claims only concern `max_lines ≥ 1`. -/
def chunkLines (lines : List String) (M : ℕ) : List (ℕ × ℕ × List String) :=
  if h : 0 < M then chunkAux M lines.length h lines 0 else []

/-- `chunk_text(text, max_lines)` (retrieval.py lines 54-60): the chunk text
is the chunk's lines joined by `"\n"`. -/
def chunk_text (text : String) (M : ℕ) : List (ℕ × ℕ × String) :=
  (chunkLines (splitlines text) M).map (fun c => (c.1, c.2.1, joinNL c.2.2))

/-! ### Filesystem model and the scanner: `iter_repo_files` (lines 29-37) -/

mutual
/-- A directory: readable files `(name, content)` — content `none` when the
`open`/decode of the file raises (the `try/except` in `build`) — and named
subdirectories. -/
inductive Dir : Type where
  | mk (files : List (String × Option String)) (subdirs : DirList)
inductive DirList : Type where
  | nil
  | cons (name : String) (d : Dir) (rest : DirList)
end

/-- `os.path.join(base, f)` for a relative `f`. -/
def joinP (base f : String) : String := base ++ "/" ++ f

mutual
/-- `os.walk(root)` (topdown): each visited directory contributes
`(base, files)` in depth-first preorder, subdirectories in listed order. -/
def walkD (base : String) : Dir → List (String × List (String × Option String))
  | .mk files subs => (base, files) :: walkL base subs
def walkL (base : String) : DirList → List (String × List (String × Option String))
  | .nil => []
  | .cons nm d rest => walkD (joinP base nm) d ++ walkL base rest
end

/-- The "noise" markers of `iter_repo_files` line 32. -/
def noiseMarkers : List String := [".git", "node_modules", ".venv", "dist", "build", "__pycache__"]

/-- `nd` is a (contiguous) substring of `hay`, starting at its head. -/
def pfxAt : List Char → List Char → Bool
  | [], _ => true
  | _ :: _, [] => false
  | c :: nd, h :: hay => c = h && pfxAt nd hay

/-- Python's `nd in hay` substring test on strings. -/
def subAt (nd : List Char) : List Char → Bool
  | [] => nd.isEmpty
  | h :: t => pfxAt nd (h :: t) || subAt nd t

def strHasSub (hay nd : String) : Bool := subAt nd.toList hay.toList

/-- `any(seg in base for seg in [...])` — line 32: a SUBSTRING test against
the full base path, not a path-segment test. -/
def noisy (base : String) : Bool := noiseMarkers.any (fun s => strHasSub base s)

/-- The supported extensions `INDEX_EXTS` (lines 20-26). -/
def INDEX_EXTS : List String := [".py", ".ts", ".tsx", ".js", ".md"]

def lowerStr (s : String) : String := String.mk (s.toList.map Char.toLower)

/-- Index of the last `'.'` in the name, if any. -/
def lastDotIdx (cs : List Char) : Option ℕ :=
  cs.enum.foldl (fun acc p => if p.2 = '.' then some p.1 else acc) none

/-- The extension part of `os.path.splitext(f)` for a bare file name: the
suffix from the last dot on, unless every character before that dot is
itself a dot (so `".bashrc"` has no extension). -/
def splitextExt (name : String) : String :=
  let cs := name.toList
  match lastDotIdx cs with
  | none => ""
  | some p => if (cs.take p).all (fun c => c = '.') then "" else String.mk (cs.drop p)

/-- `ext.lower() in INDEX_EXTS` (line 36). -/
def extOk (name : String) : Bool := INDEX_EXTS.contains (lowerStr (splitextExt name))

/-- The files one visited directory contributes to `iter_repo_files`:
nothing when the base path contains a noise marker (the `continue`),
otherwise each file with a supported extension, joined to the base. -/
def fileSel (base : String) (files : List (String × Option String)) :
    List (String × Option String) :=
  if noisy base then []
  else files.filterMap (fun fc => if extOk fc.1 then some (joinP base fc.1, fc.2) else none)

/-- The scanner paired with the content `build` will read at each path. -/
def iterEntries (root : String) (disk : Option Dir) : List (String × Option String) :=
  (match disk with
    | none => []
    | some d => walkD root d).flatMap (fun be => fileSel be.1 be.2)

/-- `iter_repo_files(root)` (lines 29-37); `disk` is the filesystem under
`root`, `none` when the root does not exist or is unreadable. -/
def iter_repo_files (root : String) (disk : Option Dir) : List String :=
  (iterEntries root disk).map Prod.fst

/-! Flat view of a directory tree, used to characterise the scanner:
every file as `(directory segments, name, content)`, in the scanner's
traversal order. -/

mutual
def allFilesD : Dir → List (List String × String × Option String)
  | .mk files subs => files.map (fun fc => ([], fc.1, fc.2)) ++ allFilesL subs
def allFilesL : DirList → List (List String × String × Option String)
  | .nil => []
  | .cons nm d rest =>
    (allFilesD d).map (fun e => (nm :: e.1, e.2.1, e.2.2)) ++ allFilesL rest
end

/-- The base path of a directory reached from `root` through `segs`. -/
def joinBase (root : String) (segs : List String) : String := segs.foldl joinP root

/-! ### The indexer data model (retrieval.py lines 46-77) -/

/-- `Fragment` (lines 46-51). -/
structure Fragment where
  path : String
  start : ℕ
  «end» : ℕ
  text : String
deriving DecidableEq, Repr

def dFrag : Fragment := ⟨"", 0, 0, ""⟩

/-- A `Dict[str, float]` vector: its key list (in insertion order) together
with its total lookup function, `0` off the keys (`d.get(t)` reads absent
keys as missing/`0.0`). -/
structure TfVec where
  keys : List String
  w : String → ℝ

def dVec : TfVec := ⟨[], fun _ => 0⟩

/-- `CodebaseIndexer.__init__` state (lines 71-77); `df` is the
term-document-frequency dict read through `df.get(t, 0)`. -/
structure CodebaseIndexer where
  root : String
  max_lines : ℕ
  fragments : List Fragment
  df : String → ℕ
  vectors : List TfVec
  _built : Bool

/-- `CodebaseIndexer(root=root)` with the default `max_lines_per_chunk=80`. -/
def initIndexer (root : String) : CodebaseIndexer :=
  ⟨root, 80, [], fun _ => 0, [], false⟩

/-! ### `build` (lines 79-116) -/

/-- The fragments `build` appends: for each readable file of the scan, the
chunks of its content in order (a file whose read raises is skipped). -/
def buildFragments (disk : Option Dir) (root : String) (maxLines : ℕ) : List Fragment :=
  (iterEntries root disk).flatMap (fun e =>
    match e.2 with
    | none => []
    | some content =>
      (chunk_text content maxLines).map (fun c => ⟨e.1, c.1, c.2.1, c.2.2⟩))

/-- The document-frequency table: `df[t]` counts the fragments whose token
list contains `t` (incremented once per fragment over `set(toks)`,
lines 98-100). -/
def dfOf (frs : List Fragment) (t : String) : ℕ :=
  frs.countP (fun fr => (simple_tokenize fr.text).contains t)

/-- `idf = math.log((n + 1) / (1 + df[t])) + 1.0` (line 108). -/
noncomputable def idfR (n dft : ℕ) : ℝ :=
  Real.log (((n : ℝ) + 1) / (1 + (dft : ℝ))) + 1

/-- The un-normalized weight `tf[t] * idf` of lines 107-110: the raw count
of `t` in the chunk's token list times its `idf` (`0` off the keys). -/
noncomputable def uW (n : ℕ) (df : String → ℕ) (toks : List String) (t : String) : ℝ :=
  (toks.count t : ℝ) * idfR n (df t)

/-- The accumulated `norm += val * val` of line 111: the squared Euclidean
norm of the un-normalized weights over the dict's keys. -/
noncomputable def rawNormSq (n : ℕ) (df : String → ℕ) (toks : List String) : ℝ :=
  (toks.dedup.map (fun t => uW n df toks t ^ 2)).sum

/-- `norm = math.sqrt(norm) or 1.0` (line 112): `1` when the square root is
zero. -/
noncomputable def nrmOf (n : ℕ) (df : String → ℕ) (toks : List String) : ℝ :=
  if Real.sqrt (rawNormSq n df toks) = 0 then 1 else Real.sqrt (rawNormSq n df toks)

/-- Lines 95-97 and 103-114 for one fragment: raw term counts, re-weighted
by `idf`, then divided by `math.sqrt(norm) or 1.0`; the dict's keys are the
chunk's distinct tokens. -/
noncomputable def mkVec (n : ℕ) (df : String → ℕ) (toks : List String) : TfVec :=
  ⟨toks.dedup, fun t => uW n df toks t / nrmOf n df toks⟩

/-- `build()` (lines 79-116): state is cleared and recomputed wholesale;
`n = max(1, len(self.fragments))`. -/
noncomputable def CodebaseIndexer.build (st : CodebaseIndexer) (disk : Option Dir) :
    CodebaseIndexer :=
  let frs := buildFragments disk st.root st.max_lines
  let df := dfOf frs
  let n := max 1 frs.length
  { root := st.root, max_lines := st.max_lines, fragments := frs, df := df,
    vectors := frs.map (fun fr => mkVec n df (simple_tokenize fr.text)), _built := true }

/-- `ensure_built` (lines 118-120). -/
noncomputable def CodebaseIndexer.ensure_built (st : CodebaseIndexer) (disk : Option Dir) :
    CodebaseIndexer :=
  if st._built then st else st.build disk

/-! ### `query` (lines 122-154) -/

/-- The squared Euclidean norm of a vector over its keys. -/
noncomputable def normSqOf (v : TfVec) : ℝ := (v.keys.map (fun t => v.w t ^ 2)).sum

/-- The dot product of lines 144-149: iterate over the query's keys; a term
absent from the fragment vector (`tf.get(t)` is `None`, or stored `0.0`)
contributes `0`. -/
noncomputable def scoreR (q v : TfVec) : ℝ := (q.keys.map (fun t => q.w t * v.w t)).sum

/-- The query vector of lines 127-140: identical weighting to `build`,
using the state's `df` and `n = max(1, len(self.fragments))`. -/
noncomputable def qVecOf (st : CodebaseIndexer) (text : String) : TfVec :=
  mkVec (max 1 st.fragments.length) st.df (simple_tokenize text)

/-- The `(score, i)` pairs of lines 143-151, in fragment order, keeping only
strictly positive scores. -/
noncomputable def scoresOf (st : CodebaseIndexer) (text : String) : List (ℝ × ℕ) :=
  st.vectors.enum.filterMap (fun p =>
    if 0 < scoreR (qVecOf st text) p.2 then some (scoreR (qVecOf st text) p.2, p.1) else none)

/-- `scores.sort(reverse=True)` on `(float, int)` pairs: descending
lexicographic order (ties in score broken by descending index). -/
def revLex (a b : ℝ × ℕ) : Prop := b.1 < a.1 ∨ (a.1 = b.1 ∧ b.2 ≤ a.2)

noncomputable instance : DecidableRel revLex := fun a b => by
  unfold revLex; infer_instance

noncomputable def rankedOf (st : CodebaseIndexer) (text : String) : List (ℝ × ℕ) :=
  (scoresOf st text).insertionSort revLex

/-- Python's `l[:k]` for an `int` `k`: a negative `k` keeps
`max(0, len(l) + k)` leading elements. -/
def takePy {α : Type} (k : ℤ) (l : List α) : List α :=
  if 0 ≤ k then l.take k.toNat else l.take (l.length - (-k).toNat)

/-- `query(text, k)` (lines 122-154). -/
noncomputable def CodebaseIndexer.query (st : CodebaseIndexer) (disk : Option Dir)
    (text : String) (k : ℤ) : List Fragment :=
  let st' := st.ensure_built disk
  if simple_tokenize text = [] then []
  else (takePy k (rankedOf st' text)).map (fun p => st'.fragments.getD p.2 dFrag)

/-- `suggest_code_patterns(prompt, root, k)` (lines 157-167): throwaway
indexer, query, keep only `path`/`start`/`end`. -/
noncomputable def suggest_code_patterns (disk : Option Dir) (prompt root : String) (k : ℤ) :
    List (String × ℕ × ℕ) :=
  ((initIndexer root).query disk prompt k).map (fun f => (f.path, f.start, f.«end»))

/-! ### Specification-side definitions

`wordsBy` / `tokensSpec` formalise the spec's wording for the tokenizer:
"split on any maximal run of characters that are not ASCII letters, digits,
or underscore; discard empty tokens and any token of length ≤ 2" — i.e. the
nonempty maximal word-character runs, keeping only those longer than 2. -/

theorem lenDropWhileLe (p : Char → Bool) (l : List Char) :
    (l.dropWhile p).length ≤ l.length :=
  (List.dropWhile_sublist p).length_le

/-- The maximal runs of characters NOT satisfying `p` (the "words"),
in order, empty runs omitted. -/
def wordsBy (p : Char → Bool) : List Char → List (List Char)
  | [] => []
  | c :: rest =>
    if p c then wordsBy p rest
    else (c :: rest.takeWhile (fun x => !p x)) :: wordsBy p (rest.dropWhile (fun x => !p x))
  termination_by l => l.length
  decreasing_by
  · simp only [List.length_cons]; omega
  · simp only [List.length_cons]
    exact Nat.lt_succ_of_le (lenDropWhileLe _ _)

/-- The tokenizer as the spec words it. -/
def tokensSpec (text : String) : List String :=
  (wordsBy (fun c => !(isWordChar c)) (text.toList.map Char.toLower)).filterMap
    (fun t => if 2 < t.length then some (String.mk t) else none)

/-- Per-file view of what the scanner emits: the selection the code
actually performs on one flat entry (noise = SUBSTRING of the base path). -/
def entrySel (root : String) (e : List String × String × Option String) :
    Option (String × Option String) :=
  if noisy (joinBase root e.1) then none
  else if extOk e.2.1 then some (joinP (joinBase root e.1) e.2.1, e.2.2) else none

/-- The scanner output as claim C1 words it: keep a file iff its extension
is supported and NO noise marker occurs as a whole path segment of its
directory prefix (segments under the root). -/
def specSegList (root : String) (d : Dir) : List String :=
  ((allFilesD d).filter (fun e =>
      extOk e.2.1 && noiseMarkers.all (fun s => !(e.1.contains s)))).map
    (fun e => joinP (joinBase root e.1) e.2.1)

/-- A repository whose `.github` directory holds `a.md`: no noise marker is
a whole segment of its path, yet `".git"` is a substring of `"./.github"`. -/
def exGithub : Dir := .mk [] (.cons ".github" (.mk [("a.md", some "x")] .nil) .nil)

/-- A two-file repository with identical contents, exhibiting the
tie-breaking of `scores.sort(reverse=True)`. -/
def exDisk2 : Dir := .mk [("a.py", some "hello"), ("b.py", some "hello")] .nil

def fragA2 : Fragment := ⟨"./a.py", 1, 1, "hello"⟩

def fragB2 : Fragment := ⟨"./b.py", 1, 1, "hello"⟩

/-- The index built over `exDisk2`. -/
noncomputable def st2 : CodebaseIndexer := (initIndexer ".").build (some exDisk2)

/-- The (shared) fragment vector of both `exDisk2` fragments. -/
noncomputable def vec2 : TfVec := mkVec 2 (dfOf [fragA2, fragB2]) ["hello"]

/-- A one-file repository used as concrete witness input. -/
def exDisk1 : Dir := .mk [("a.py", some "hello")] .nil

/-! ### General lemmas -/

theorem takePy_nil {α : Type} (k : ℤ) : takePy k ([] : List α) = [] := by
  simp [takePy]

/-- `splitRuns` and `wordsBy` agree once empty pieces are dropped;
proved jointly with a head/tail characterisation of `splitRuns`. -/
theorem splitRuns_words (p : Char → Bool) (cs : List Char) :
    (splitRuns p cs).filter (fun t => !t.isEmpty) = wordsBy p cs ∧
    (splitRuns p cs).head? = some (cs.takeWhile (fun x => !p x)) ∧
    (splitRuns p cs).tail.filter (fun t => !t.isEmpty)
      = wordsBy p (cs.dropWhile (fun x => !p x)) := by
  induction cs with
  | nil => refine ⟨?_, ?_, ?_⟩ <;> simp [splitRuns, wordsBy]
  | cons c rest ih =>
    obtain ⟨ihA, ihB, ihC⟩ := ih
    cases hc : p c with
    | true =>
      cases rest with
      | nil =>
        refine ⟨?_, ?_, ?_⟩ <;> simp [splitRuns, wordsBy, hc]
      | cons d r =>
        cases hd : p d with
        | true =>
          have hsr : splitRuns p (c :: d :: r) = splitRuns p (d :: r) := by
            simp [splitRuns, hc, hd]
          have hw : wordsBy p (c :: d :: r) = wordsBy p (d :: r) := by
            simp [wordsBy, hc]
          have hdw : (c :: d :: r).dropWhile (fun x => !p x) = c :: d :: r := by
            simp [List.dropWhile_cons, hc]
          have hdw2 : (d :: r).dropWhile (fun x => !p x) = d :: r := by
            simp [List.dropWhile_cons, hd]
          refine ⟨?_, ?_, ?_⟩
          · rw [hsr, ihA, hw]
          · rw [hsr, ihB]
            simp [List.takeWhile_cons, hc, hd]
          · rw [hsr, ihC, hdw, hdw2, hw]
        | false =>
          have hsr : splitRuns p (c :: d :: r) = [] :: splitRuns p (d :: r) := by
            simp [splitRuns, hc, hd]
          have hw : wordsBy p (c :: d :: r) = wordsBy p (d :: r) := by
            simp [wordsBy, hc]
          have hdw : (c :: d :: r).dropWhile (fun x => !p x) = c :: d :: r := by
            simp [List.dropWhile_cons, hc]
          refine ⟨?_, ?_, ?_⟩
          · rw [hsr]
            simp only [List.filter_cons]
            rw [ihA, hw]
            simp
          · rw [hsr]
            simp [List.takeWhile_cons, hc]
          · rw [hsr]
            show (splitRuns p (d :: r)).filter (fun t => !t.isEmpty) = _
            rw [ihA, hdw, hw]
    | false =>
      obtain ⟨ts, hts⟩ : ∃ ts, splitRuns p rest = rest.takeWhile (fun x => !p x) :: ts := by
        cases hsp : splitRuns p rest with
        | nil => rw [hsp] at ihB; simp at ihB
        | cons t ts0 =>
          rw [hsp] at ihB
          simp only [List.head?_cons, Option.some.injEq] at ihB
          exact ⟨ts0, by rw [← ihB]⟩
      have htail : (splitRuns p rest).tail = ts := by rw [hts]; rfl
      rw [htail] at ihC
      have hsr : splitRuns p (c :: rest)
          = (c :: rest.takeWhile (fun x => !p x)) :: ts := by
        simp [splitRuns, hc, hts]
      have hw : wordsBy p (c :: rest)
          = (c :: rest.takeWhile (fun x => !p x))
              :: wordsBy p (rest.dropWhile (fun x => !p x)) := by
        simp [wordsBy, hc]
      refine ⟨?_, ?_, ?_⟩
      · rw [hsr, hw]
        simp only [List.filter_cons]
        rw [ihC]
        simp
      · rw [hsr]
        simp [List.takeWhile_cons, hc]
      · rw [hsr]
        show ts.filter (fun t => !t.isEmpty) = _
        rw [ihC]
        simp [List.dropWhile_cons, hc]

mutual
theorem walkD_entries (root : String) (d : Dir) :
    (walkD root d).flatMap (fun be => fileSel be.1 be.2)
      = (allFilesD d).filterMap (entrySel root) := by
  cases d with
  | mk files subs =>
    have hsub := walkL_entries root subs
    show fileSel root files ++ (walkL root subs).flatMap (fun be => fileSel be.1 be.2) = _
    rw [hsub]
    show _ = (files.map (fun fc : String × Option String =>
        (([] : List String), fc.1, fc.2)) ++ allFilesL subs).filterMap (entrySel root)
    rw [List.filterMap_append, List.filterMap_map]
    congr 1
    by_cases hn : noisy root = true
    · rw [fileSel, if_pos hn]
      have h1 : ∀ fc : String × Option String,
          (entrySel root ∘ fun fc : String × Option String =>
            (([] : List String), fc.1, fc.2)) fc = none := by
        intro fc
        simp [entrySel, joinBase, Function.comp, hn]
      rw [List.filterMap_congr (fun a _ => h1 a)]
      simp
    · rw [fileSel, if_neg hn]
      refine List.filterMap_congr ?_
      intro fc _
      simp [entrySel, joinBase, Function.comp, hn]
theorem walkL_entries (root : String) (dl : DirList) :
    (walkL root dl).flatMap (fun be => fileSel be.1 be.2)
      = (allFilesL dl).filterMap (entrySel root) := by
  cases dl with
  | nil => rfl
  | cons nm d rest =>
    have hd := walkD_entries (joinP root nm) d
    have hr := walkL_entries root rest
    show (walkD (joinP root nm) d ++ walkL root rest).flatMap (fun be => fileSel be.1 be.2) = _
    rw [List.flatMap_append, hd, hr]
    show _ = ((allFilesD d).map (fun e => (nm :: e.1, e.2.1, e.2.2)) ++ allFilesL rest).filterMap
      (entrySel root)
    rw [List.filterMap_append, List.filterMap_map]
    congr 1
end

theorem idfR_ge_one (n dft : ℕ) (hd : dft ≤ n) : 1 ≤ idfR n dft := by
  unfold idfR
  have hdr : (dft : ℝ) ≤ (n : ℝ) := Nat.cast_le.mpr hd
  have h1 : (1 : ℝ) ≤ ((n : ℝ) + 1) / (1 + (dft : ℝ)) := by
    rw [le_div_iff₀ (by positivity)]
    linarith
  have h2 := Real.log_nonneg h1
  linarith

theorem idfR_pos (n dft : ℕ) (hd : dft ≤ n) : 0 < idfR n dft :=
  lt_of_lt_of_le one_pos (idfR_ge_one n dft hd)

theorem idfR_at_n (n : ℕ) : idfR n n = 1 := by
  unfold idfR
  have h0 : (1 : ℝ) + (n : ℝ) ≠ 0 := by positivity
  rw [show ((n : ℝ) + 1) = 1 + (n : ℝ) from by ring, div_self h0, Real.log_one]
  ring

theorem uW_nonneg (n : ℕ) (df : String → ℕ) (toks : List String) (t : String)
    (hd : df t ≤ n) : 0 ≤ uW n df toks t :=
  mul_nonneg (by positivity) (idfR_pos n (df t) hd).le

theorem uW_pos_of_mem (n : ℕ) (df : String → ℕ) (toks : List String) (t : String)
    (hd : df t ≤ n) (ht : t ∈ toks) : 0 < uW n df toks t := by
  apply mul_pos _ (idfR_pos n (df t) hd)
  exact_mod_cast List.count_pos_iff.mpr ht

theorem uW_zero_of_not_mem (n : ℕ) (df : String → ℕ) (toks : List String) (t : String)
    (ht : t ∉ toks) : uW n df toks t = 0 := by
  unfold uW
  rw [List.count_eq_zero_of_not_mem ht]
  simp

theorem rawNormSq_nonneg (n : ℕ) (df : String → ℕ) (toks : List String) :
    0 ≤ rawNormSq n df toks := by
  apply List.sum_nonneg
  intro x hx
  obtain ⟨t, _, rfl⟩ := List.mem_map.mp hx
  positivity

theorem rawNormSq_pos (n : ℕ) (df : String → ℕ) (toks : List String)
    (htoks : toks ≠ []) (hd : ∀ t, df t ≤ n) : 0 < rawNormSq n df toks := by
  obtain ⟨t, ht⟩ := List.exists_mem_of_ne_nil toks htoks
  have h1 : uW n df toks t ^ 2 ∈ toks.dedup.map (fun s => uW n df toks s ^ 2) :=
    List.mem_map_of_mem _ (List.mem_dedup.mpr ht)
  have hnn : ∀ x ∈ toks.dedup.map (fun s => uW n df toks s ^ 2), (0 : ℝ) ≤ x := by
    intro x hx
    obtain ⟨s, _, rfl⟩ := List.mem_map.mp hx
    positivity
  have h2 := List.single_le_sum hnn _ h1
  have h3 : 0 < uW n df toks t := uW_pos_of_mem n df toks t (hd t) ht
  calc (0 : ℝ) < uW n df toks t ^ 2 := by positivity
  _ ≤ _ := h2

theorem nrmOf_pos (n : ℕ) (df : String → ℕ) (toks : List String) : 0 < nrmOf n df toks := by
  unfold nrmOf
  by_cases h : Real.sqrt (rawNormSq n df toks) = 0
  · rw [if_pos h]; norm_num
  · rw [if_neg h]
    exact lt_of_le_of_ne (Real.sqrt_nonneg _) (Ne.symm h)

theorem nrmOf_eq_sqrt (n : ℕ) (df : String → ℕ) (toks : List String)
    (h : 0 < rawNormSq n df toks) : nrmOf n df toks = Real.sqrt (rawNormSq n df toks) := by
  unfold nrmOf
  rw [if_neg (ne_of_gt (Real.sqrt_pos.mpr h))]

theorem mkVec_w_nonneg (n : ℕ) (df : String → ℕ) (toks : List String) (t : String)
    (hd : df t ≤ n) : 0 ≤ (mkVec n df toks).w t :=
  div_nonneg (uW_nonneg n df toks t hd) (nrmOf_pos n df toks).le

theorem mkVec_w_pos_of_mem (n : ℕ) (df : String → ℕ) (toks : List String) (t : String)
    (hd : df t ≤ n) (ht : t ∈ toks) : 0 < (mkVec n df toks).w t :=
  div_pos (uW_pos_of_mem n df toks t hd ht) (nrmOf_pos n df toks)

theorem mkVec_w_zero_of_not_mem (n : ℕ) (df : String → ℕ) (toks : List String) (t : String)
    (ht : t ∉ toks) : (mkVec n df toks).w t = 0 := by
  show uW n df toks t / nrmOf n df toks = 0
  rw [uW_zero_of_not_mem n df toks t ht, zero_div]

theorem normSqOf_mkVec (n : ℕ) (df : String → ℕ) (toks : List String)
    (htoks : toks ≠ []) (hd : ∀ t, df t ≤ n) : normSqOf (mkVec n df toks) = 1 := by
  have hpos := rawNormSq_pos n df toks htoks hd
  have hnrm := nrmOf_eq_sqrt n df toks hpos
  unfold normSqOf
  show (toks.dedup.map (fun t => (uW n df toks t / nrmOf n df toks) ^ 2)).sum = 1
  have hfun : (fun t => (uW n df toks t / nrmOf n df toks) ^ 2)
      = fun t => uW n df toks t ^ 2 * (nrmOf n df toks ^ 2)⁻¹ := by
    funext t
    rw [div_pow, div_eq_mul_inv]
  rw [hfun, List.sum_map_mul_right]
  show rawNormSq n df toks * (nrmOf n df toks ^ 2)⁻¹ = 1
  rw [hnrm, Real.sq_sqrt (rawNormSq_nonneg n df toks)]
  field_simp

theorem scoreR_nonneg (n : ℕ) (df : String → ℕ) (qt vt : List String)
    (hd : ∀ t, df t ≤ n) : 0 ≤ scoreR (mkVec n df qt) (mkVec n df vt) := by
  apply List.sum_nonneg
  intro x hx
  obtain ⟨t, _, rfl⟩ := List.mem_map.mp hx
  exact mul_nonneg (mkVec_w_nonneg n df qt t (hd t)) (mkVec_w_nonneg n df vt t (hd t))

theorem scoreR_pos_iff (n : ℕ) (df : String → ℕ) (qt vt : List String)
    (hd : ∀ t, df t ≤ n) :
    0 < scoreR (mkVec n df qt) (mkVec n df vt) ↔ ∃ t, t ∈ qt ∧ t ∈ vt := by
  constructor
  · intro hpos
    by_contra hno
    push_neg at hno
    have hz : scoreR (mkVec n df qt) (mkVec n df vt) = 0 := by
      apply List.sum_eq_zero
      intro x hx
      obtain ⟨t, htm, rfl⟩ := List.mem_map.mp hx
      have htq : t ∈ qt := List.mem_dedup.mp htm
      rw [mkVec_w_zero_of_not_mem n df vt t (hno t htq), mul_zero]
    rw [hz] at hpos
    exact lt_irrefl 0 hpos
  · rintro ⟨t, htq, htv⟩
    have hterm : 0 < (mkVec n df qt).w t * (mkVec n df vt).w t :=
      mul_pos (mkVec_w_pos_of_mem n df qt t (hd t) htq)
        (mkVec_w_pos_of_mem n df vt t (hd t) htv)
    have h1 : (mkVec n df qt).w t * (mkVec n df vt).w t
        ∈ qt.dedup.map (fun s => (mkVec n df qt).w s * (mkVec n df vt).w s) :=
      List.mem_map_of_mem _ (List.mem_dedup.mpr htq)
    have hnn : ∀ x ∈ qt.dedup.map (fun s => (mkVec n df qt).w s * (mkVec n df vt).w s),
        (0 : ℝ) ≤ x := by
      intro x hx
      obtain ⟨s, _, rfl⟩ := List.mem_map.mp hx
      exact mul_nonneg (mkVec_w_nonneg n df qt s (hd s)) (mkVec_w_nonneg n df vt s (hd s))
    have h2 := List.single_le_sum hnn _ h1
    exact lt_of_lt_of_le hterm h2

theorem scoreR_self (n : ℕ) (df : String → ℕ) (toks : List String)
    (htoks : toks ≠ []) (hd : ∀ t, df t ≤ n) :
    scoreR (mkVec n df toks) (mkVec n df toks) = 1 := by
  have h1 : scoreR (mkVec n df toks) (mkVec n df toks) = normSqOf (mkVec n df toks) := by
    unfold scoreR normSqOf
    refine congrArg List.sum ?_
    apply List.map_congr_left
    intro t _
    rw [sq]
  rw [h1, normSqOf_mkVec n df toks htoks hd]

theorem build_df_le (st : CodebaseIndexer) (disk : Option Dir) (t : String) :
    (st.build disk).df t ≤ max 1 (st.build disk).fragments.length := by
  show dfOf (buildFragments disk st.root st.max_lines) t ≤ _
  exact le_trans (List.countP_le_length _) (le_max_right _ _)


theorem getD_of_lt {α : Type} (d : α) (l : List α) (i : ℕ) (h : i < l.length) :
    l.getD i d = l[i] := by
  rw [List.getD_eq_getElem?_getD, List.getElem?_eq_getElem h]
  rfl

theorem build_vectors_length (st : CodebaseIndexer) (disk : Option Dir) :
    (st.build disk).vectors.length = (st.build disk).fragments.length := by
  show ((buildFragments disk st.root st.max_lines).map _).length = _
  rw [List.length_map]
  rfl

theorem build_vectors_getD (st : CodebaseIndexer) (disk : Option Dir) (i : ℕ)
    (hi : i < (st.build disk).vectors.length) :
    (st.build disk).vectors.getD i dVec
      = mkVec (max 1 (st.build disk).fragments.length) (st.build disk).df
          (simple_tokenize (((st.build disk).fragments.getD i dFrag).text)) := by
  have hif : i < (st.build disk).fragments.length := by
    rw [← build_vectors_length st disk]; exact hi
  have hrepr : (st.build disk).vectors = (buildFragments disk st.root st.max_lines).map
      (fun fr => mkVec (max 1 (buildFragments disk st.root st.max_lines).length)
        (dfOf (buildFragments disk st.root st.max_lines)) (simple_tokenize fr.text)) := rfl
  rw [getD_of_lt dVec _ i hi, getD_of_lt dFrag _ i hif]
  simp only [hrepr, List.getElem_map]
  rfl

theorem ex1_bf : buildFragments (some exDisk1) "." 80 = [⟨"./a.py", 1, 1, "hello"⟩] := by
  have h1 : iterEntries "." (some exDisk1) = [("./a.py", some "hello")] := by decide
  unfold buildFragments
  rw [h1]
  have h3 : splitlines "hello" = ["hello"] := by decide
  have h2 : chunk_text "hello" 80 = [(1, 1, "hello")] := by
    unfold chunk_text chunkLines
    rw [h3]
    rw [dif_pos (by norm_num : (0:ℕ) < 80)]
    simp [chunkAux, joinNL]
  simp [h2]

theorem ex1_fragments : ((initIndexer ".").build (some exDisk1)).fragments
    = [⟨"./a.py", 1, 1, "hello"⟩] := ex1_bf

theorem ex1_len : ((initIndexer ".").build (some exDisk1)).vectors.length = 1 := by
  rw [build_vectors_length, ex1_fragments]
  rfl

theorem ex1_frag0 : ((initIndexer ".").build (some exDisk1)).fragments.getD 0 dFrag
    = ⟨"./a.py", 1, 1, "hello"⟩ := by
  rw [ex1_fragments]
  rfl

theorem scoresOf_nil (st' : CodebaseIndexer) (text : String)
    (h : ∀ v ∈ st'.vectors, scoreR (qVecOf st' text) v ≤ 0) : scoresOf st' text = [] := by
  unfold scoresOf
  rw [List.filterMap_eq_nil_iff]
  intro p hp
  obtain ⟨i, x, rfl⟩ : ∃ i x, p = (i, x) := ⟨p.1, p.2, rfl⟩
  have h2 := List.mk_mem_enum_iff_getElem?.mp hp
  obtain ⟨hlt, hx⟩ := List.getElem?_eq_some_iff.mp h2
  have hv : x ∈ st'.vectors := by
    rw [← hx]
    exact List.getElem_mem hlt
  rw [if_neg (not_lt.mpr (h x hv))]

theorem revLex_total : ∀ a b : ℝ × ℕ, revLex a b ∨ revLex b a := by
  intro a b
  rcases lt_trichotomy a.1 b.1 with h | h | h
  · right; left; exact h
  · rcases le_total b.2 a.2 with h2 | h2
    · left; right; exact ⟨h, h2⟩
    · right; right; exact ⟨h.symm, h2⟩
  · left; left; exact h

theorem revLex_trans : ∀ a b c : ℝ × ℕ, revLex a b → revLex b c → revLex a c := by
  intro a b c hab hbc
  rcases hab with h1 | ⟨h1, h1'⟩ <;> rcases hbc with h2 | ⟨h2, h2'⟩
  · left; exact lt_trans h2 h1
  · left; rw [← h2]; exact h1
  · left; rw [h1]; exact h2
  · right; exact ⟨h1.trans h2, le_trans h2' h1'⟩

instance : IsTotal (ℝ × ℕ) revLex := ⟨revLex_total⟩
instance : IsTrans (ℝ × ℕ) revLex := ⟨fun a b c => revLex_trans a b c⟩

theorem rankedOf_sorted (st : CodebaseIndexer) (text : String) :
    List.Sorted revLex (rankedOf st text) :=
  List.sorted_insertionSort revLex _

theorem ex2_bf : buildFragments (some exDisk2) "." 80 = [fragA2, fragB2] := by
  have h1 : iterEntries "." (some exDisk2)
      = [("./a.py", some "hello"), ("./b.py", some "hello")] := by decide
  unfold buildFragments
  rw [h1]
  have h3 : splitlines "hello" = ["hello"] := by decide
  have h2 : chunk_text "hello" 80 = [(1, 1, "hello")] := by
    unfold chunk_text chunkLines
    rw [h3]
    rw [dif_pos (by norm_num : (0:ℕ) < 80)]
    simp [chunkAux, joinNL]
  simp [h2, fragA2, fragB2]

theorem ex2_fragments : st2.fragments = [fragA2, fragB2] := ex2_bf

theorem ex2_df : st2.df = dfOf [fragA2, fragB2] := by
  show dfOf (buildFragments (some exDisk2) "." 80) = _
  rw [ex2_bf]

theorem ex2_vectors : st2.vectors = [vec2, vec2] := by
  show (buildFragments (some exDisk2) "." 80).map
    (fun fr => mkVec (max 1 (buildFragments (some exDisk2) "." 80).length)
      (dfOf (buildFragments (some exDisk2) "." 80)) (simple_tokenize fr.text)) = _
  rw [ex2_bf]
  have htok : simple_tokenize "hello" = ["hello"] := by decide
  show [mkVec (max 1 2) (dfOf [fragA2, fragB2]) (simple_tokenize fragA2.text),
        mkVec (max 1 2) (dfOf [fragA2, fragB2]) (simple_tokenize fragB2.text)] = _
  have hA : fragA2.text = "hello" := rfl
  have hB : fragB2.text = "hello" := rfl
  rw [hA, hB, htok]
  norm_num [vec2]

theorem ex2_u : uW 2 (dfOf [fragA2, fragB2]) ["hello"] "hello" = 1 := by
  unfold uW
  rw [show dfOf [fragA2, fragB2] "hello" = 2 from by decide]
  rw [show (["hello"] : List String).count "hello" = 1 from by decide]
  rw [idfR_at_n 2]
  norm_num

theorem ex2_nsq : rawNormSq 2 (dfOf [fragA2, fragB2]) ["hello"] = 1 := by
  unfold rawNormSq
  rw [show (["hello"] : List String).dedup = ["hello"] from by decide]
  simp [ex2_u]

theorem ex2_nrm : nrmOf 2 (dfOf [fragA2, fragB2]) ["hello"] = 1 := by
  unfold nrmOf
  rw [ex2_nsq, Real.sqrt_one]
  rw [if_neg one_ne_zero]

theorem ex2_w : vec2.w "hello" = 1 := by
  show uW 2 (dfOf [fragA2, fragB2]) ["hello"] "hello" / nrmOf 2 (dfOf [fragA2, fragB2]) ["hello"] = 1
  rw [ex2_u, ex2_nrm]
  norm_num

theorem ex2_score : scoreR vec2 vec2 = 1 := by
  unfold scoreR
  show ((["hello"] : List String).dedup.map (fun t => vec2.w t * vec2.w t)).sum = 1
  rw [show (["hello"] : List String).dedup = ["hello"] from by decide]
  simp [ex2_w]

theorem ex2_qvec : qVecOf st2 "hello" = vec2 := by
  show mkVec (max 1 st2.fragments.length) st2.df (simple_tokenize "hello") = vec2
  rw [ex2_fragments, ex2_df, show simple_tokenize "hello" = ["hello"] from by decide]
  norm_num [vec2]

theorem ex2_scores : scoresOf st2 "hello" = [(1, 0), (1, 1)] := by
  unfold scoresOf
  rw [ex2_vectors, ex2_qvec]
  show ([(0, vec2), (1, vec2)] : List (ℕ × TfVec)).filterMap
    (fun p => if 0 < scoreR vec2 p.2 then some (scoreR vec2 p.2, p.1) else none) = _
  simp only [List.filterMap_cons, List.filterMap_nil, ex2_score]
  norm_num

theorem ex2_ranked : rankedOf st2 "hello" = [(1, 1), (1, 0)] := by
  unfold rankedOf
  rw [ex2_scores]
  show List.orderedInsert revLex (1, 0) (List.orderedInsert revLex (1, 1) []) = _
  rw [List.orderedInsert_nil]
  show (if revLex (1, 0) (1, 1) then [(1, 0), (1, 1)] else
    (1, 1) :: List.orderedInsert revLex (1, 0) []) = _
  rw [if_neg (by norm_num [revLex])]
  rfl


theorem ex2_query_neg : (initIndexer ".").query (some exDisk2) "hello" (-1) = [fragB2] := by
  show (if simple_tokenize "hello" = [] then []
    else (takePy (-1) (rankedOf st2 "hello")).map (fun p => st2.fragments.getD p.2 dFrag)) = _
  rw [if_neg (show ¬simple_tokenize "hello" = [] from by decide)]
  rw [ex2_ranked]
  unfold takePy
  rw [if_neg (by norm_num : ¬(0:ℤ) ≤ -1)]
  norm_num
  rw [ex2_fragments]
  rfl

theorem ex2_query_one : st2.query (some exDisk2) "hello" 1 = [fragB2] := by
  show (if simple_tokenize "hello" = [] then []
    else (takePy 1 (rankedOf st2 "hello")).map (fun p => st2.fragments.getD p.2 dFrag)) = _
  rw [if_neg (show ¬simple_tokenize "hello" = [] from by decide)]
  rw [ex2_ranked]
  unfold takePy
  rw [if_pos (by norm_num : (0:ℤ) ≤ 1)]
  norm_num
  rw [ex2_fragments]
  rfl

theorem length_filterMap_if_enumFrom {α β : Type} (c : α → Prop) [DecidablePred c]
    (g : ℕ → α → β) :
    ∀ (l : List α) (off : ℕ),
      ((l.enumFrom off).filterMap
        (fun p => if c p.2 then some (g p.1 p.2) else none)).length
        = l.countP (fun a => decide (c a))
  | [], _ => rfl
  | a :: l, off => by
    have ih := length_filterMap_if_enumFrom c g l (off + 1)
    simp only [List.enumFrom_cons, List.filterMap_cons, List.countP_cons]
    by_cases hc : c a
    · rw [if_pos hc]
      simp [ih, hc]
    · rw [if_neg hc]
      simp [ih, hc]

theorem scoresOf_build_length (st : CodebaseIndexer) (disk : Option Dir) (text : String) :
    (scoresOf (st.build disk) text).length
      = (st.build disk).fragments.countP
          (fun fr => (simple_tokenize text).any
            (fun t => (simple_tokenize fr.text).contains t)) := by
  unfold scoresOf
  rw [List.enum_eq_enumFrom]
  rw [length_filterMap_if_enumFrom
    (fun v => 0 < scoreR (qVecOf (st.build disk) text) v)
    (fun n v => (scoreR (qVecOf (st.build disk) text) v, n)) _ 0]
  have hrepr : (st.build disk).vectors = (buildFragments disk st.root st.max_lines).map
      (fun fr => mkVec (max 1 (buildFragments disk st.root st.max_lines).length)
        (dfOf (buildFragments disk st.root st.max_lines)) (simple_tokenize fr.text)) := rfl
  rw [hrepr, List.countP_map]
  apply List.countP_congr
  intro fr _
  simp only [Function.comp, decide_eq_true_eq]
  have hd : ∀ t, dfOf (buildFragments disk st.root st.max_lines) t
      ≤ max 1 (buildFragments disk st.root st.max_lines).length := by
    intro t
    exact le_trans (List.countP_le_length _) (le_max_right _ _)
  have hq : qVecOf (st.build disk) text
      = mkVec (max 1 (buildFragments disk st.root st.max_lines).length)
        (dfOf (buildFragments disk st.root st.max_lines)) (simple_tokenize text) := rfl
  rw [hq, scoreR_pos_iff _ _ _ _ hd]
  simp [List.any_eq_true]

theorem mem_scoresOf (st' : CodebaseIndexer) (text : String) (i : ℕ)
    (hi : i < st'.vectors.length)
    (hpos : 0 < scoreR (qVecOf st' text) (st'.vectors.getD i dVec)) :
    (scoreR (qVecOf st' text) (st'.vectors.getD i dVec), i) ∈ scoresOf st' text := by
  unfold scoresOf
  apply List.mem_filterMap.mpr
  refine ⟨(i, st'.vectors.getD i dVec), ?_, ?_⟩
  · apply List.mk_mem_enum_iff_getElem?.mpr
    rw [getD_of_lt dVec _ i hi]
    exact List.getElem?_eq_getElem hi
  · rw [if_pos hpos]


/-- A `filterMap` that sends `[]` to `none` ignores the empty pieces. -/
theorem filterMap_skip_empty {β : Type} (g : List Char → Option β) (hg : g [] = none) :
    ∀ l : List (List Char),
      l.filterMap g = (l.filter (fun t => !t.isEmpty)).filterMap g
  | [] => rfl
  | t :: ts => by
    have ih := filterMap_skip_empty g hg ts
    cases t with
    | nil => simp [List.filterMap_cons, List.filter_cons, hg, ih]
    | cons x xs => simp [List.filterMap_cons, List.filter_cons, ih]

theorem chunkAux_length (M L : ℕ) (hM : 0 < M) :
    ∀ (rem : List String) (i : ℕ),
      (chunkAux M L hM rem i).length = (rem.length + M - 1) / M
  | [], _ => by
    simp only [chunkAux, List.length_nil]
    have h : 0 + M - 1 = M - 1 := by omega
    rw [h, Nat.div_eq_of_lt (by omega)]
  | l :: ls, i => by
    have ih := chunkAux_length M L hM ((l :: ls).drop M) (i + M)
    simp only [chunkAux, List.length_cons, List.length_drop] at ih ⊢
    rw [ih]
    have h5 : ls.length + 1 + M - 1 = ls.length + M := by omega
    rw [h5, Nat.add_div_right _ hM]
    rcases le_or_lt (ls.length + 1) M with h | h
    · have h1 : ls.length + 1 - M = 0 := by omega
      have h2 : (0 + M - 1) / M = 0 := Nat.div_eq_of_lt (by omega)
      have h4 : ls.length / M = 0 := Nat.div_eq_of_lt (by omega)
      rw [h1, h2, h4]
    · have h3 : ls.length + 1 - M + M - 1 = (ls.length - M) + M := by omega
      rw [h3, Nat.add_div_right _ hM]
      have h7 : ls.length / M = (ls.length - M) / M + 1 := by
        conv_lhs => rw [← Nat.sub_add_cancel (show M ≤ ls.length by omega)]
        rw [Nat.add_div_right _ hM]
      rw [h7]
  termination_by rem => rem.length
  decreasing_by simp only [List.length_drop, List.length_cons]; omega

theorem chunkAux_flat (M L : ℕ) (hM : 0 < M) :
    ∀ (rem : List String) (i : ℕ),
      (chunkAux M L hM rem i).flatMap (fun c => c.2.2) = rem
  | [], _ => by simp [chunkAux]
  | l :: ls, i => by
    have ih := chunkAux_flat M L hM ((l :: ls).drop M) (i + M)
    simp only [chunkAux, List.flatMap_cons, ih]
    exact List.take_append_drop M (l :: ls)
  termination_by rem => rem.length
  decreasing_by simp only [List.length_drop, List.length_cons]; omega

theorem chunkAux_get (M L : ℕ) (hM : 0 < M) :
    ∀ (rem : List String) (i j : ℕ) (hj : j < (chunkAux M L hM rem i).length),
      (chunkAux M L hM rem i).get ⟨j, hj⟩ =
        (i + j * M + 1, min (i + j * M + ((rem.drop (j * M)).take M).length) L,
          (rem.drop (j * M)).take M)
  | [], i, j, hj => by simp [chunkAux] at hj
  | l :: ls, i, 0, hj => by simp [chunkAux]
  | l :: ls, i, j + 1, hj => by
    have hj' : j < (chunkAux M L hM ((l :: ls).drop M) (i + M)).length := by
      simpa [chunkAux] using hj
    have ih := chunkAux_get M L hM ((l :: ls).drop M) (i + M) j hj'
    have hstep : (chunkAux M L hM (l :: ls) i).get ⟨j + 1, hj⟩
        = (chunkAux M L hM ((l :: ls).drop M) (i + M)).get ⟨j, hj'⟩ := by
      simp [chunkAux]
    rw [hstep, ih, List.drop_drop]
    have h1 : i + M + j * M = i + (j + 1) * M := by ring
    have h2 : M + j * M = (j + 1) * M := by ring
    rw [h1, h2]
  termination_by rem => rem.length
  decreasing_by simp only [List.length_drop, List.length_cons]; omega

/-! ### Claim theorems -/

/-- C8: `build()` is idempotent with respect to an unchanged filesystem:
a second `build` over the same disk reproduces the whole state — the same
fragment list, the same `df` table and the same vectors — because `build`
discards all previous state and recomputes it from the disk, the root and
the chunk size alone, all of which it preserves. -/
theorem build_idempotent (st : CodebaseIndexer) (disk : Option Dir) :
    (st.build disk).build disk = st.build disk ∧
    ((st.build disk).build disk).fragments = (st.build disk).fragments ∧
    (∀ t, ((st.build disk).build disk).df t = (st.build disk).df t) ∧
    ((st.build disk).build disk).vectors = (st.build disk).vectors :=
  ⟨rfl, rfl, fun _ => rfl, rfl⟩

/-- C2: for every text of `L` lines and every `max_lines = M ≥ 1`,
`chunk_text` yields the chunks of the line list in order: exactly
`⌈L / M⌉` chunks (`0` when `L = 0`), the `j`-th chunk starting at the
1-based line `j·M + 1`, holding the lines `lines[j·M : j·M + M]` (hence at
most `M` of them), its inclusive end line being `min(start + M - 1, L)`,
and the concatenation of all chunks' line lists reconstructing the file's
line list exactly. -/
theorem chunk_text_spec (text : String) (M : ℕ) (hM : 1 ≤ M) :
    chunk_text text M
      = (chunkLines (splitlines text) M).map (fun c => (c.1, c.2.1, joinNL c.2.2)) ∧
    (chunkLines (splitlines text) M).length = ((splitlines text).length + M - 1) / M ∧
    (chunkLines (splitlines text) M).flatMap (fun c => c.2.2) = splitlines text ∧
    ∀ (j : ℕ) (hj : j < (chunkLines (splitlines text) M).length),
      ((chunkLines (splitlines text) M).get ⟨j, hj⟩).1 = j * M + 1 ∧
      ((chunkLines (splitlines text) M).get ⟨j, hj⟩).2.2
        = ((splitlines text).drop (j * M)).take M ∧
      ((chunkLines (splitlines text) M).get ⟨j, hj⟩).2.1
        = min (((chunkLines (splitlines text) M).get ⟨j, hj⟩).1 + M - 1)
            (splitlines text).length ∧
      ((chunkLines (splitlines text) M).get ⟨j, hj⟩).2.2.length ≤ M := by
  have hM0 : 0 < M := hM
  set lines := splitlines text with hlines
  set L := lines.length with hL
  have hCL : chunkLines lines M = chunkAux M L hM0 lines 0 := by
    rw [chunkLines, dif_pos hM0]
  refine ⟨rfl, ?_, ?_, ?_⟩
  · rw [hCL, chunkAux_length]
  · rw [hCL, chunkAux_flat]
  · intro j
    rw [hCL]
    intro hj'
    rw [chunkAux_get M L hM0 lines 0 j hj']
    have hlen := chunkAux_length M L hM0 lines 0
    have hj2 : j < (L + M - 1) / M := by rw [← hlen]; exact hj'
    have h2 : (j + 1) * M ≤ L + M - 1 := (Nat.le_div_iff_mul_le hM0).mp hj2
    have h2' : j * M + M ≤ L + M - 1 := by rw [Nat.succ_mul] at h2; exact h2
    have hjM : j * M < L := by omega
    refine ⟨by simp, by simp, ?_, ?_⟩
    · simp only [Nat.zero_add, List.length_take, List.length_drop]
      omega
    · simp only [List.length_take, List.length_drop]
      omega

/-- Witness for C2 at the three-line text `"a\nb\nc"` with `M = 2`. -/
theorem chunk_text_spec_witness :
    1 ≤ 2 ∧
    (chunkLines (splitlines "a\nb\nc") 2).length = ((splitlines "a\nb\nc").length + 2 - 1) / 2 :=
  ⟨by decide, (chunk_text_spec "a\nb\nc" 2 (by decide)).2.1⟩

/-- C1 counterexample: the claim says a file is excluded only when a noise
marker is a whole path segment of its directory prefix, never merely a
substring of a segment — so `./.github/a.md` (extension `.md`, segment
`.github` not among the markers) should be yielded; but `iter_repo_files`
tests `seg in base` as a SUBSTRING of the base path and `".git"` occurs
inside `"./.github"`, so the scanner yields nothing over `exGithub`. -/
theorem iter_repo_files_cex :
    specSegList "." exGithub = ["./.github/a.md"] ∧
    iter_repo_files "." (some exGithub) = [] := by
  constructor
  · decide
  · decide

/-- C1 (amended): `iter_repo_files` yields exactly those file paths under
the root whose extension (per `os.path.splitext`), compared
case-insensitively, is in `{.py, .ts, .tsx, .js, .md}` and whose base
directory path — the root joined with the directory segments — does NOT
contain any of `.git`, `node_modules`, `.venv`, `dist`, `build`,
`__pycache__` as a SUBSTRING of the joined path (so a marker occurring
inside a longer segment such as `.github` or `rebuild`, or inside the root
itself, also excludes the file). -/
theorem iter_repo_files_spec (root : String) (d : Dir) :
    iter_repo_files root (some d)
      = ((allFilesD d).filter (fun e => !noisy (joinBase root e.1) && extOk e.2.1)).map
          (fun e => joinP (joinBase root e.1) e.2.1) := by
  unfold iter_repo_files iterEntries
  rw [show (match (some d : Option Dir) with
      | none => ([] : List (String × List (String × Option String)))
      | some d => walkD root d) = walkD root d from rfl]
  rw [walkD_entries root d]
  induction allFilesD d with
  | nil => rfl
  | cons e es ih =>
    simp only [List.filterMap_cons, List.filter_cons]
    by_cases hn : noisy (joinBase root e.1) = true
    · simp [entrySel, hn, ih]
    · by_cases he : extOk e.2.1 = true
      · simp [entrySel, hn, he, ih]
      · simp [entrySel, hn, he, ih]

/-- C3: after `build()` completes, every fragment vector built from at
least one token has squared Euclidean norm exactly 1 (so L2 norm 1; the
float claim's tolerance is exact in the real model), and every fragment
whose chunk tokenizes to no tokens has an all-zero vector — the zero norm
is replaced by divisor 1 rather than raising; this holds for every corpus
and every (re)build, since `build` recomputes the state wholesale. -/
theorem build_vectors_normalized (st : CodebaseIndexer) (disk : Option Dir) (i : ℕ)
    (hi : i < (st.build disk).vectors.length) :
    (simple_tokenize (((st.build disk).fragments.getD i dFrag).text) ≠ [] →
      normSqOf ((st.build disk).vectors.getD i dVec) = 1 ∧
      Real.sqrt (normSqOf ((st.build disk).vectors.getD i dVec)) = 1) ∧
    (simple_tokenize (((st.build disk).fragments.getD i dFrag).text) = [] →
      ∀ t, ((st.build disk).vectors.getD i dVec).w t = 0) := by
  rw [build_vectors_getD st disk i hi]
  have hd : ∀ t, (st.build disk).df t ≤ max 1 (st.build disk).fragments.length := by
    intro t
    exact build_df_le st disk t
  constructor
  · intro htok
    have h1 := normSqOf_mkVec _ _ _ htok hd
    exact ⟨h1, by rw [h1, Real.sqrt_one]⟩
  · intro htok t
    apply mkVec_w_zero_of_not_mem
    rw [htok]
    exact List.not_mem_nil t


/-- Witness for C3 over the one-file repository `exDisk1`. -/
theorem build_vectors_normalized_witness :
    0 < ((initIndexer ".").build (some exDisk1)).vectors.length ∧
    simple_tokenize ((((initIndexer ".").build (some exDisk1)).fragments.getD 0 dFrag).text)
      ≠ [] ∧
    normSqOf (((initIndexer ".").build (some exDisk1)).vectors.getD 0 dVec) = 1 := by
  have hi : 0 < ((initIndexer ".").build (some exDisk1)).vectors.length := by
    rw [ex1_len]; norm_num
  have htok : simple_tokenize ((((initIndexer ".").build (some exDisk1)).fragments.getD 0
      dFrag).text) ≠ [] := by
    rw [ex1_frag0]; decide
  exact ⟨hi, htok,
    ((build_vectors_normalized (initIndexer ".") (some exDisk1) 0 hi).1 htok).1⟩


/-- C5: with `n = max(1, fragment count)`, the weight of each term is
`tf * idf` with `idf = ln((n+1)/(1+df)) + 1`; for `df ≤ n` this `idf` is
strictly positive and equals exactly `1` at `df = n`; consequently no
stored weight is zero or negative for a term occurring in its fragment. -/
theorem idf_positive_spec :
    (∀ n dft : ℕ, 1 ≤ n → dft ≤ n → 0 < idfR n dft ∧ (dft = n → idfR n dft = 1)) ∧
    (∀ (st : CodebaseIndexer) (disk : Option Dir) (i : ℕ) (t : String),
      i < (st.build disk).vectors.length →
      t ∈ simple_tokenize (((st.build disk).fragments.getD i dFrag).text) →
      0 < ((st.build disk).vectors.getD i dVec).w t) := by
  constructor
  · intro n dft _ hd
    exact ⟨idfR_pos n dft hd, fun h => by rw [h]; exact idfR_at_n n⟩
  · intro st disk i t hi htok
    rw [build_vectors_getD st disk i hi]
    exact mkVec_w_pos_of_mem _ _ _ t (build_df_le st disk t) htok

theorem idf_positive_spec_witness :
    (0 < idfR 1 0 ∧ idfR 1 1 = 1) ∧
    0 < (((initIndexer ".").build (some exDisk1)).vectors.getD 0 dVec).w "hello" := by
  refine ⟨⟨(idf_positive_spec.1 1 0 (by norm_num) (by norm_num)).1,
          (idf_positive_spec.1 1 1 (by norm_num) (by norm_num)).2 rfl⟩, ?_⟩
  apply idf_positive_spec.2 (initIndexer ".") (some exDisk1) 0 "hello"
  · rw [ex1_len]
    norm_num
  · rw [ex1_frag0]
    decide

/-- C6: `query(text, k)` returns the empty list whenever `text` tokenizes
to no tokens, and whenever no fragment vector scores strictly above zero
against the query vector; conversely every returned fragment is a stored
fragment whose score is strictly positive; and a never-built indexer
auto-builds on `query` (querying it equals querying the built state —
nothing can raise, the embedding is total). -/
theorem query_empty_and_positive (st : CodebaseIndexer) (disk : Option Dir)
    (text : String) (k : ℤ) :
    (simple_tokenize text = [] → st.query disk text k = []) ∧
    ((∀ v ∈ (st.ensure_built disk).vectors,
        scoreR (qVecOf (st.ensure_built disk) text) v ≤ 0) →
      st.query disk text k = []) ∧
    (∀ f ∈ st.query disk text k, ∃ i : ℕ,
      i < (st.ensure_built disk).vectors.length ∧
      f = (st.ensure_built disk).fragments.getD i dFrag ∧
      0 < scoreR (qVecOf (st.ensure_built disk) text)
          ((st.ensure_built disk).vectors.getD i dVec)) ∧
    (st._built = false → st.query disk text k = (st.build disk).query disk text k) := by
  refine ⟨?_, ?_, ?_, ?_⟩
  · intro h
    unfold CodebaseIndexer.query
    rw [if_pos h]
  · intro h
    unfold CodebaseIndexer.query
    by_cases htok : simple_tokenize text = []
    · rw [if_pos htok]
    · rw [if_neg htok]
      rw [show rankedOf (st.ensure_built disk) text = [] from by
        unfold rankedOf
        rw [scoresOf_nil _ _ h]
        rfl]
      rw [takePy_nil]
      rfl
  · intro f hf
    unfold CodebaseIndexer.query at hf
    by_cases htok : simple_tokenize text = []
    · rw [if_pos htok] at hf
      exact absurd hf (List.not_mem_nil f)
    · rw [if_neg htok] at hf
      obtain ⟨p, hp, rfl⟩ := List.mem_map.mp hf
      have hpr : p ∈ rankedOf (st.ensure_built disk) text := by
        have hsub : takePy k (rankedOf (st.ensure_built disk) text)
            ⊆ rankedOf (st.ensure_built disk) text := by
          unfold takePy
          by_cases hk : 0 ≤ k
          · rw [if_pos hk]; exact List.take_subset _ _
          · rw [if_neg hk]; exact List.take_subset _ _
        exact hsub hp
      have hps : p ∈ scoresOf (st.ensure_built disk) text :=
        (List.perm_insertionSort revLex _).mem_iff.mp hpr
      unfold scoresOf at hps
      obtain ⟨a, ha, hpa⟩ := List.mem_filterMap.mp hps
      by_cases hsc : 0 < scoreR (qVecOf (st.ensure_built disk) text) a.2
      · rw [if_pos hsc] at hpa
        obtain ⟨i, x, rfl⟩ : ∃ i x, a = (i, x) := ⟨a.1, a.2, rfl⟩
        have h2 := List.mk_mem_enum_iff_getElem?.mp ha
        obtain ⟨hilen, hx⟩ := List.getElem?_eq_some_iff.mp h2
        injection hpa with h3
        subst h3
        refine ⟨i, hilen, by simp, ?_⟩
        rw [getD_of_lt dVec _ i hilen, hx]
        simpa using hsc
      · rw [if_neg hsc] at hpa
        exact absurd hpa (by simp)
  · intro h
    unfold CodebaseIndexer.query CodebaseIndexer.ensure_built
    rw [h]
    rfl


/-- Witness for C6: the empty query over the one-file repository, and the
auto-build equality for a fresh (never-built) indexer. -/
theorem query_empty_and_positive_witness :
    simple_tokenize "" = [] ∧
    (initIndexer ".").query (some exDisk1) "" 5 = [] ∧
    (initIndexer ".").query (some exDisk1) "x" 5
      = ((initIndexer ".").build (some exDisk1)).query (some exDisk1) "x" 5 :=
  ⟨by decide,
   (query_empty_and_positive (initIndexer ".") (some exDisk1) "" 5).1 (by decide),
   (query_empty_and_positive (initIndexer ".") (some exDisk1) "x" 5).2.2.2 rfl⟩

/-- C7 counterexample: the claim quantifies over every integer `k`, but
Python's slice `scores[:k]` with a negative `k` keeps all but the last
`|k|` matches: over a two-fragment corpus both fragments match `"hello"`,
and `query("hello", -1)` returns one fragment — not "at most `k`". -/
theorem query_topk_cex :
    (initIndexer ".").query (some exDisk2) "hello" (-1) = [fragB2] ∧
    ¬((((initIndexer ".").query (some exDisk2) "hello" (-1)).length : ℤ) ≤ -1) := by
  refine ⟨ex2_query_neg, ?_⟩
  rw [ex2_query_neg]
  norm_num


/-- C7 (amended): for every `k ≥ 0`, `query(text, k)` returns at most `k`
fragments, drawn in order from the ranked score list, which is sorted by
non-increasing score (the tie-break among equal scores being the
descending-index artifact of the reversed tuple sort, not specified here);
`suggest_code_patterns` returns exactly those fragments' `{path, start,
end}` records in that same order, text omitted.  For negative `k` the code
instead keeps all but the last `|k|` matches (Python slice semantics). -/
theorem query_topk_sorted (st : CodebaseIndexer) (disk : Option Dir)
    (text prompt root : String) (k : ℤ) (hk : 0 ≤ k) :
    ((st.query disk text k).length : ℤ) ≤ k ∧
    List.Sorted (fun a b : ℝ × ℕ => b.1 ≤ a.1)
      (takePy k (rankedOf (st.ensure_built disk) text)) ∧
    suggest_code_patterns disk prompt root k
      = ((initIndexer root).query disk prompt k).map (fun f => (f.path, f.start, f.«end»)) := by
  refine ⟨?_, ?_, rfl⟩
  · unfold CodebaseIndexer.query
    by_cases htok : simple_tokenize text = []
    · rw [if_pos htok]
      simpa using hk
    · rw [if_neg htok]
      rw [List.length_map]
      unfold takePy
      rw [if_pos hk]
      have h1 := List.length_take_le k.toNat (rankedOf (st.ensure_built disk) text)
      have h2 := Int.toNat_of_nonneg hk
      omega
  · have hs : List.Sorted (fun a b : ℝ × ℕ => b.1 ≤ a.1)
        (rankedOf (st.ensure_built disk) text) := by
      apply List.Pairwise.imp _ (rankedOf_sorted _ _)
      intro a b hab
      rcases hab with h | ⟨h, _⟩
      · exact le_of_lt h
      · exact le_of_eq h.symm
    unfold takePy
    by_cases hk' : 0 ≤ k
    · rw [if_pos hk']
      exact List.Pairwise.sublist (List.take_sublist _ _) hs
    · rw [if_neg hk']
      exact List.Pairwise.sublist (List.take_sublist _ _) hs


/-- Witness for C7 (amended) at `k = 5` over the one-file repository. -/
theorem query_topk_sorted_witness :
    0 ≤ (5 : ℤ) ∧ (((initIndexer ".").query (some exDisk1) "x" 5).length : ℤ) ≤ 5 :=
  ⟨by decide,
   (query_topk_sorted (initIndexer ".") (some exDisk1) "x" "x" "." 5 (by decide)).1⟩


/-- C9 counterexample: over a corpus with two fragments of identical text,
querying the built index with the exact text of the FIRST fragment at
`k = 1` returns only the second one: both score exactly 1 and the
reversed `(score, index)` sort places the higher index first, so the
claimed fragment `F` itself is not among the top-k. -/
theorem query_self_cex :
    fragA2 ∈ st2.fragments ∧
    simple_tokenize fragA2.text ≠ [] ∧
    st2.query (some exDisk2) fragA2.text 1 = [fragB2] ∧
    fragA2 ∉ st2.query (some exDisk2) fragA2.text 1 := by
  refine ⟨?_, by decide, ex2_query_one, ?_⟩
  · rw [ex2_fragments]
    simp
  · rw [show fragA2.text = "hello" from rfl, ex2_query_one]
    decide


/-- C9 (amended): for every built index, fragment `F = fragments[i]` whose
text tokenizes to at least one token, and every `k` at least the number of
fragments sharing a token with `F`, querying with the exact text of `F`
returns `F` among the results, and `F`'s own cosine score against the
query is exactly 1 (query and fragment vectors coincide).  For smaller `k`
a fragment with equal score 1 and larger index may displace `F`. -/
theorem query_self_topk (st : CodebaseIndexer) (disk : Option Dir) (i : ℕ)
    (hi : i < (st.build disk).fragments.length) (k : ℤ)
    (htok : simple_tokenize (((st.build disk).fragments.getD i dFrag).text) ≠ [])
    (hk : (((st.build disk).fragments.countP
        (fun fr => (simple_tokenize (((st.build disk).fragments.getD i dFrag).text)).any
          (fun t => (simple_tokenize fr.text).contains t))) : ℤ) ≤ k) :
    (st.build disk).fragments.getD i dFrag
      ∈ (st.build disk).query disk (((st.build disk).fragments.getD i dFrag).text) k ∧
    scoreR (qVecOf (st.build disk) (((st.build disk).fragments.getD i dFrag).text))
      ((st.build disk).vectors.getD i dVec) = 1 := by
  have hiv : i < (st.build disk).vectors.length := by
    rw [build_vectors_length]
    exact hi
  have hd : ∀ t, (st.build disk).df t ≤ max 1 (st.build disk).fragments.length :=
    fun t => build_df_le st disk t
  have hvget := build_vectors_getD st disk i hiv
  have hscore1 : scoreR
      (qVecOf (st.build disk) (((st.build disk).fragments.getD i dFrag).text))
      ((st.build disk).vectors.getD i dVec) = 1 := by
    rw [hvget]
    exact scoreR_self _ _ _ htok hd
  refine ⟨?_, hscore1⟩
  show (st.build disk).fragments.getD i dFrag ∈
    (if simple_tokenize (((st.build disk).fragments.getD i dFrag).text) = [] then []
     else (takePy k (rankedOf (st.build disk)
         (((st.build disk).fragments.getD i dFrag).text))).map
       (fun p => (st.build disk).fragments.getD p.2 dFrag))
  rw [if_neg htok]
  have hlenr : (rankedOf (st.build disk)
      (((st.build disk).fragments.getD i dFrag).text)).length
      = ((st.build disk).fragments.countP
          (fun fr => (simple_tokenize (((st.build disk).fragments.getD i dFrag).text)).any
            (fun t => (simple_tokenize fr.text).contains t))) := by
    unfold rankedOf
    rw [(List.perm_insertionSort revLex _).length_eq]
    exact scoresOf_build_length st disk _
  have hk0 : 0 ≤ k := le_trans (by positivity) hk
  have htake : takePy k (rankedOf (st.build disk)
      (((st.build disk).fragments.getD i dFrag).text))
      = rankedOf (st.build disk) (((st.build disk).fragments.getD i dFrag).text) := by
    unfold takePy
    rw [if_pos hk0]
    apply List.take_of_length_le
    rw [hlenr]
    omega
  rw [htake]
  have hpos : 0 < scoreR
      (qVecOf (st.build disk) (((st.build disk).fragments.getD i dFrag).text))
      ((st.build disk).vectors.getD i dVec) := by
    rw [hscore1]
    norm_num
  have hmem := mem_scoresOf (st.build disk)
    (((st.build disk).fragments.getD i dFrag).text) i hiv hpos
  have hmemr : (scoreR
      (qVecOf (st.build disk) (((st.build disk).fragments.getD i dFrag).text))
      ((st.build disk).vectors.getD i dVec), i)
      ∈ rankedOf (st.build disk) (((st.build disk).fragments.getD i dFrag).text) := by
    unfold rankedOf
    exact (List.perm_insertionSort revLex _).mem_iff.mpr hmem
  have := List.mem_map_of_mem
    (fun p : ℝ × ℕ => (st.build disk).fragments.getD p.2 dFrag) hmemr
  simpa using this


/-- Witness for C9 (amended) over the one-file repository. -/
theorem query_self_topk_witness :
    0 < ((initIndexer ".").build (some exDisk1)).fragments.length ∧
    simple_tokenize ((((initIndexer ".").build (some exDisk1)).fragments.getD 0 dFrag).text)
      ≠ [] ∧
    ((((initIndexer ".").build (some exDisk1)).fragments.countP
        (fun fr => (simple_tokenize ((((initIndexer ".").build
            (some exDisk1)).fragments.getD 0 dFrag).text)).any
          (fun t => (simple_tokenize fr.text).contains t))) : ℤ) ≤ 1 ∧
    (((initIndexer ".").build (some exDisk1)).fragments.getD 0 dFrag)
      ∈ ((initIndexer ".").build (some exDisk1)).query (some exDisk1)
          ((((initIndexer ".").build (some exDisk1)).fragments.getD 0 dFrag).text) 1 := by
  have hi : 0 < ((initIndexer ".").build (some exDisk1)).fragments.length := by
    rw [ex1_fragments]
    norm_num
  have htok : simple_tokenize ((((initIndexer ".").build
      (some exDisk1)).fragments.getD 0 dFrag).text) ≠ [] := by
    rw [ex1_frag0]
    decide
  have hcv : (((initIndexer ".").build (some exDisk1)).fragments.countP
      (fun fr => (simple_tokenize ((((initIndexer ".").build
          (some exDisk1)).fragments.getD 0 dFrag).text)).any
        (fun t => (simple_tokenize fr.text).contains t))) = 1 := by
    rw [ex1_fragments]
    decide
  have hk : ((((initIndexer ".").build (some exDisk1)).fragments.countP
      (fun fr => (simple_tokenize ((((initIndexer ".").build
          (some exDisk1)).fragments.getD 0 dFrag).text)).any
        (fun t => (simple_tokenize fr.text).contains t))) : ℤ) ≤ 1 := by
    rw [hcv]
    norm_num
  exact ⟨hi, htok, hk,
    (query_self_topk (initIndexer ".") (some exDisk1) 0 hi 1 htok hk).1⟩


/-- C4: `simple_tokenize` is a pure function that lowercases its input,
splits it on every maximal run of characters outside `[A-Za-z0-9_]`, and
returns, in order, exactly the resulting tokens of length > 2 (empty and
short tokens discarded) — it coincides with the spec-side `tokensSpec`;
moreover the very same function is applied to every chunk vectorised by
`build` and to the query text vectorised by `query`. -/
theorem simple_tokenize_spec :
    (∀ text : String, simple_tokenize text = tokensSpec text) ∧
    (∀ (st : CodebaseIndexer) (disk : Option Dir),
      (st.build disk).vectors
        = (st.build disk).fragments.map (fun fr =>
            mkVec (max 1 (st.build disk).fragments.length) (st.build disk).df
              (simple_tokenize fr.text))) ∧
    (∀ (st : CodebaseIndexer) (text : String),
      qVecOf st text = mkVec (max 1 st.fragments.length) st.df (simple_tokenize text)) := by
  refine ⟨?_, fun _ _ => rfl, fun _ _ => rfl⟩
  intro text
  unfold simple_tokenize tokensSpec
  rw [filterMap_skip_empty _ (by simp), (splitRuns_words _ _).1]

/-- C10: for a root that does not exist (or is unreadable) — modelled as
`none`, since `os.walk` invoked without an error handler silently yields
nothing for such a root — the scanner yields no paths, `build` produces an
index with no fragments, an all-zero `df` and no vectors, and `query` /
`suggest_code_patterns` on a fresh indexer return the empty list (every
operation is total: nothing raises). -/
theorem missing_root_empty (root text prompt : String) (st : CodebaseIndexer) (k : ℤ) :
    iter_repo_files root none = [] ∧
    (st.build none).fragments = [] ∧
    (∀ t, (st.build none).df t = 0) ∧
    (st.build none).vectors = [] ∧
    (initIndexer root).query none text k = [] ∧
    suggest_code_patterns none prompt root k = [] := by
  have hq : ∀ r t : String, (initIndexer r).query none t k = [] := by
    intro r t
    unfold CodebaseIndexer.query
    by_cases h : simple_tokenize t = []
    · simp [h]
    · simp [h, rankedOf, scoresOf, CodebaseIndexer.ensure_built, initIndexer,
        CodebaseIndexer.build, buildFragments, iterEntries, takePy]
  refine ⟨rfl, rfl, fun _ => rfl, rfl, hq root text, ?_⟩
  simp [suggest_code_patterns, hq]

end Retrieval
